import Mathlib

/-!
Verification of the postcode reconciliation engine of Nominatim
(`src/nominatim_db/tools/postcodes.py`) and of the version string
round-trip (`src/nominatim_db/version.py`), as a shallow embedding in
Lean 4.

Coordinates are modelled as rationals (`ℚ`): the Python code performs
only additions, subtractions, divisions and comparisons on them, all of
which coincide with exact rational arithmetic on the inputs considered
here.  Python dictionaries keyed by postcode strings are modelled as
association lists with unique keys; uniqueness is carried as an explicit
hypothesis (`Nodup` on the key list) matching the dict invariant.
-/

namespace Postcodes

/-- Modelled from the spec: the `PointsCentroid` accumulator of
`nominatim_db.utils.centroid` is not part of the sources under
verification; the spec describes it as keeping a running sum of x, a
running sum of y and a count of points folded, with
`centroid() = (sum_x/count, sum_y/count)` and folding adding the point's
coordinates to the sums and incrementing the count. -/
structure PointsCentroid where
  sumx : ℚ
  sumy : ℚ
  count : ℕ
  deriving DecidableEq, Repr

/-- A fresh accumulator, as created by `defaultdict(PointsCentroid)` on
first access of a key. -/
def PointsCentroid.empty : PointsCentroid := ⟨0, 0, 0⟩

/-- Modelled from the spec: `fold(point)` adds the point's coordinates to
the running sums and increments the count (`__iadd__` in the source's
usage `self.collected[normalized] += (x, y)`). -/
def PointsCentroid.fold (c : PointsCentroid) (x y : ℚ) : PointsCentroid :=
  ⟨c.sumx + x, c.sumy + y, c.count + 1⟩

/-- Modelled from the spec: `centroid()` returns the arithmetic mean
point `(sum_x/count, sum_y/count)`.  The spec's precondition `count ≥ 1`
always holds where the source calls it, because keys are created on
first fold. -/
def PointsCentroid.centroid (c : PointsCentroid) : ℚ × ℚ :=
  (c.sumx / c.count, c.sumy / c.count)

/-- The collector's `collected` mapping (`Dict[str, PointsCentroid]`),
as an association list with unique keys. -/
abbrev CMap : Type := List (String × PointsCentroid)

/-- Key lookup in the collected mapping (`postcode in self.collected` /
`self.collected[postcode]`). -/
def lookupK : CMap → String → Option PointsCentroid
  | [], _ => none
  | (k, v) :: rest, key => if k = key then some v else lookupK rest key

/-- `self.collected[normalized] += (x, y)` on a `defaultdict`: folds the
point into the existing accumulator for the key, creating a fresh
accumulator on first use. -/
def updCollected : CMap → String → ℚ → ℚ → CMap
  | [], k, x, y => [(k, PointsCentroid.empty.fold x y)]
  | (k', c) :: rest, k, x, y =>
      if k' = k then (k', c.fold x y) :: rest
      else (k', c) :: updCollected rest k x y

/-- `self.collected.pop(postcode, None)`: returns the value stored at
the key (or `none`) together with the mapping with that binding
removed (unchanged when the key is absent). -/
def popFirst : CMap → String → Option PointsCentroid × CMap
  | [], _ => (none, [])
  | (k, v) :: rest, key =>
      if k = key then (some v, rest)
      else
        let r := popFirst rest key
        (r.1, (k, v) :: r.2)

/-- The keys of a collected mapping. -/
def keysOf (m : CMap) : List String := m.map (fun e => e.1)

/-- The update tolerance `0.0000001` from `_compute_changes`. -/
def tol : ℚ := 1 / 10000000

/-- The update condition of `_compute_changes` line 122, verbatim:
`(x - newx) > 0.0000001 or (y - newy) > 0.0000001` where `(x, y)` is the
stored point and `(newx, newy)` the recomputed centroid. -/
def trigger (x y newx newy : ℚ) : Bool :=
  decide (x - newx > tol) || decide (y - newy > tol)

/-- The result triple of `_compute_changes`:
`(to_add, to_delete, to_update)` with `to_add : List (postcode, x, y)`,
`to_delete : List postcode`, `to_update : List (newx, newy, postcode)`. -/
abbrev Changes : Type :=
  List (String × ℚ × ℚ) × List String × List (ℚ × ℚ × String)

/-- `_PostcodeCollector._compute_changes`, lines 104-130: iterate over
the stored rows `(postcode, x, y)` of the country, popping each postcode
from the collected mapping; a popped entry goes to `to_update` when the
tolerance condition fires, an absent one puts the stored postcode into
`to_delete`; whatever remains collected afterwards becomes `to_add`
paired with its centroid.  (`pop` with default `None` leaves the dict
unchanged on a miss, hence the recursion reuses `collected` in the
`none` branch.) -/
def computeChanges : List (String × ℚ × ℚ) → CMap → Changes
  | [], collected =>
      (collected.map (fun e => (e.1, (e.2.centroid).1, (e.2.centroid).2)), [], [])
  | (pc, x, y) :: rest, collected =>
      match popFirst collected pc with
      | (some c, collected') =>
          let res := computeChanges rest collected'
          if trigger x y (c.centroid).1 (c.centroid).2 then
            (res.1, res.2.1, ((c.centroid).1, (c.centroid).2, pc) :: res.2.2)
          else
            res
      | (none, _) =>
          let res := computeChanges rest collected
          (res.1, pc :: res.2.1, res.2.2)

/-- Modelled from the spec: the country postcode matcher capability
(`CountryPostcodeMatcher` of `nominatim_db.data.postcode_format`, not
part of the sources under verification) is `match(raw) -> candidate|none`
and `normalize(candidate) -> canonical|none`; the candidate type `μ` is
opaque to the collector. -/
structure Matcher (μ : Type) where
  matchPc : String → Option μ
  normalize : μ → Option String

/-- The mutable state of `_PostcodeCollector` relevant to `add`: the
optional matcher, the collected mapping and the one-slot
`normalization_cache` holding the last `(raw postcode, normalized-or-none)`
pair. -/
structure Collector (μ : Type) where
  matcher : Option (Matcher μ)
  collected : CMap
  cache : Option (String × Option String)

/-- A freshly constructed `_PostcodeCollector`: empty mapping, empty
cache slot. -/
def Collector.init (matcher : Option (Matcher μ)) : Collector μ :=
  ⟨matcher, [], none⟩

/-- `_PostcodeCollector.add`, lines 51-65.  The whole body is guarded by
`if self.matcher is not None:`; with a matcher, the normalized form is
taken from the one-slot cache when the raw postcode matches the cached
one (`if self.normalization_cache and self.normalization_cache[0] == postcode`,
a 2-tuple being always truthy) and otherwise recomputed as
`normalize(match(postcode)) if match else None` and written to the
cache; `if normalized:` (Python truthiness: `None` and the empty string
are falsy) folds the point into the accumulator for the normalized key. -/
def Collector.add (st : Collector μ) (postcode : String) (x y : ℚ) : Collector μ :=
  match st.matcher with
  | none => st
  | some m =>
      let r : Option String × Option (String × Option String) :=
        match st.cache with
        | some (p, n) =>
            if p = postcode then (n, some (p, n))
            else
              let fresh := (m.matchPc postcode).bind m.normalize
              (fresh, some (postcode, fresh))
        | none =>
            let fresh := (m.matchPc postcode).bind m.normalize
            (fresh, some (postcode, fresh))
      match r.1 with
      | some s =>
          if s.isEmpty then { st with cache := r.2 }
          else { st with collected := updCollected st.collected s x y, cache := r.2 }
      | none => { st with cache := r.2 }

/-- Feeding a list of `(postcode, x, y)` source rows into a collector by
repeated `add`, as the reconciliation driver does (lines 210-216). -/
def runAdds (st : Collector μ) : List (String × ℚ × ℚ) → Collector μ
  | [] => st
  | (pc, x, y) :: rest => runAdds (st.add pc x y) rest

/-- The cache-free variant of `add` used to state that the one-slot
normalization cache is a pure optimization: `match` and `normalize` run
on every call and no cache is consulted or written.  This definition
follows the spec's description of the pipeline, for comparison with
`Collector.add` taken from the source. -/
def addPlain (m : Matcher μ) (coll : CMap) (postcode : String) (x y : ℚ) : CMap :=
  match (m.matchPc postcode).bind m.normalize with
  | some s => if s.isEmpty then coll else updCollected coll s x y
  | none => coll

/-- Folding a list of source rows with the cache-free `add` variant. -/
def runPlain (m : Matcher μ) (coll : CMap) : List (String × ℚ × ℚ) → CMap
  | [] => coll
  | (pc, x, y) :: rest => runPlain m (addPlain m coll pc x y) rest

/-- The result of Python's `float(numstr)`: `none` when `float` raises
`ValueError`, otherwise a value carrying whether it is finite
(`math.isfinite`) and, for finite results, its exact rational value.
The parsing function itself is kept abstract (a parameter `pf` below):
the source delegates it wholesale to the Python runtime. -/
structure PyFloat where
  finite : Bool
  val : ℚ
  deriving DecidableEq, Repr

/-- `_to_float`, lines 29-38: convert the string to a float and raise
`ValueError` (here: return `none`) unless the result is finite and lies
strictly inside `(-max_value, max_value)`
(`if not isfinite(num) or num <= -max_value or num >= max_value`). -/
def to_float (pf : String → Option PyFloat) (numstr : String) (maxValue : ℚ) : Option ℚ :=
  match pf numstr with
  | none => none
  | some num =>
      if !num.finite || decide (num.val ≤ -maxValue) || decide (num.val ≥ maxValue) then none
      else some num.val

/-- One row of the external postcode file as produced by
`csv.DictReader`: the three fields the code accesses, each `none` when
the corresponding column is absent from the file's header. -/
structure ExtRow where
  postcode : Option String
  lat : Option String
  lon : Option String
  deriving DecidableEq, Repr

/-- `csv.DictReader` row construction: each record's fields are paired
positionally with the header columns; a field whose column is missing
from the header is absent from the row dict. -/
def dictRow (header : List String) (rec : List String) : ExtRow :=
  { postcode := (header.zip rec).lookup "postcode"
  , lat := (header.zip rec).lookup "lat"
  , lon := (header.zip rec).lookup "lon" }

/-- The rows `csv.DictReader` yields for a file with the given header
and records. -/
def dictRows (header : List String) (recs : List (List String)) : List ExtRow :=
  recs.map (dictRow header)

/-- The row loop of `_PostcodeCollector._update_from_external`, lines
140-156: a row missing one of the `postcode`/`lat`/`lon` keys aborts the
whole merge (`return`), leaving the collected mapping as it is; a row
whose normalized postcode is already collected is ignored; otherwise
`lon` and `lat` are validated with `_to_float` and on success the point
is folded in, a `ValueError` skipping just that row.  `ana` is the
analyzer's `normalize_postcode` capability; `pf` is Python `float`. -/
def updateFromExternal (pf : String → Option PyFloat) (ana : String → String) :
    List ExtRow → CMap → CMap
  | [], coll => coll
  | row :: rest, coll =>
      match row.postcode, row.lat, row.lon with
      | some rawPc, some latStr, some lonStr =>
          let pc := ana rawPc
          if (lookupK coll pc).isSome then updateFromExternal pf ana rest coll
          else
            match to_float pf lonStr 180, to_float pf latStr 90 with
            | some lonVal, some latVal =>
                updateFromExternal pf ana rest (updCollected coll pc lonVal latVal)
            | _, _ => updateFromExternal pf ana rest coll
      | _, _, _ => coll

/-- The effect of the three SQL statements of
`_PostcodeCollector.commit` (lines 81-102) on the rows of
`location_postcode` for this country, the table holding at most one row
per postcode: `to_add` rows are inserted, `to_delete` postcodes are
removed, `to_update` entries replace the stored point of their postcode.
The buckets have pairwise disjoint key sets (proved below), so the
statement order is immaterial. -/
def applyChanges (stored : List (String × ℚ × ℚ)) (ch : Changes) :
    List (String × ℚ × ℚ) :=
  (stored.filter (fun r => !(ch.2.1.contains r.1))).map
    (fun r =>
      match ch.2.2.find? (fun u => decide (u.2.2 = r.1)) with
      | some u => (r.1, u.1, u.2.1)
      | none => r)
  ++ ch.1

/-- The postcode keys of the `to_add` bucket. -/
def addKeys (ch : Changes) : List String := ch.1.map (fun r => r.1)

/-- The postcode keys of the `to_update` bucket (entries are
`(newx, newy, postcode)`). -/
def updKeys (ch : Changes) : List String := ch.2.2.map (fun u => u.2.2)

/-- A stored postcode that is collected and does not fire the tolerance
condition: it lands in no bucket (row untouched by the commit). -/
def unchangedKey (stored : List (String × ℚ × ℚ)) (C : CMap) (k : String) : Prop :=
  ∃ x y c, (k, x, y) ∈ stored ∧ lookupK C k = some c ∧
    trigger x y (c.centroid).1 (c.centroid).2 = false

/-- A concrete instantiation of Python `float` on the strings used in
the coordinate-validation scenarios. -/
def pfProbe : String → Option PyFloat := fun s =>
  if s = "180.0" then some ⟨true, 180⟩
  else if s = "-180.0" then some ⟨true, -180⟩
  else if s = "90.0" then some ⟨true, 90⟩
  else if s = "-90.0" then some ⟨true, -90⟩
  else if s = "179.999999" then some ⟨true, 179999999 / 1000000⟩
  else if s = "45.0" then some ⟨true, 45⟩
  else if s = "13.0" then some ⟨true, 13⟩
  else if s = "inf" then some ⟨false, 0⟩
  else none

end Postcodes

namespace Version

/-- `NominatimVersion` of `src/nominatim_db/version.py`: four integer
fields.  The claims considered here restrict the fields to non-negative
integers, encoded as `ℕ`. -/
structure NominatimVersion where
  major : ℕ
  minor : ℕ
  patch_level : ℕ
  db_patch_level : ℕ
  deriving DecidableEq, Repr

/-- Decimal representation of a non-negative integer, as Python's
`f"{n}"` produces it: most significant digit first, `"0"` for zero.
Strings are modelled as lists of characters. -/
def natRepr (n : ℕ) : List Char :=
  if n = 0 then ['0']
  else ((Nat.digits 10 n).reverse).map (fun d => Char.ofNat (d + 48))

/-- `NominatimVersion.__str__`, lines 34-38: with an integer (hence
non-`None`) `db_patch_level`, the string is
`f"{major}.{minor}.{patch_level}-{db_patch_level}"`. -/
def versionStr (v : NominatimVersion) : List Char :=
  natRepr v.major ++ '.' :: (natRepr v.minor ++ '.' :: (natRepr v.patch_level ++ '-' :: natRepr v.db_patch_level))

/-- Python `str.split(sep)` for a single-character separator: splits
into the (possibly empty) chunks between occurrences of `sep`;
`"".split(sep) = [""]`. -/
def splitOnChar (sep : Char) : List Char → List (List Char)
  | [] => [[]]
  | c :: rest =>
      if c = sep then [] :: splitOnChar sep rest
      else
        match splitOnChar sep rest with
        | [] => [[c]]
        | g :: gs => (c :: g) :: gs

/-- Python `int(x)` on the digit-only strings arising from
`versionStr`: `some` of the decimal value of a non-empty all-digit
string, `none` (a raised `ValueError`) otherwise.  (Python's `int` also
accepts signs and surrounding whitespace; such strings never arise in
the round-trip considered here.) -/
def parseNat (s : List Char) : Option ℕ :=
  if s ≠ [] ∧ s.all (fun c => c.isDigit) then
    some (s.foldl (fun acc c => 10 * acc + (c.toNat - 48)) 0)
  else none

/-- `parse_version`, lines 48-55:
`parts = version.split('.')` and
`NominatimVersion(*[int(x) for x in parts[:2] + parts[2].split('-')])`.
Fewer than three dot-parts (`IndexError` on `parts[2]`), an argument
count different from four (`TypeError` in the constructor call) or a
non-integer part (`ValueError` in `int`) make the call raise, modelled
as `none`; dot-parts beyond the third are dropped by `parts[:2]`
together with the indexing. -/
def parse_version (s : List Char) : Option NominatimVersion :=
  match splitOnChar '.' s with
  | p0 :: p1 :: p2 :: _ =>
      match splitOnChar '-' p2 with
      | [q0, q1] =>
          match parseNat p0, parseNat p1, parseNat q0, parseNat q1 with
          | some a, some b, some c, some d => some ⟨a, b, c, d⟩
          | _, _, _, _ => none
      | _ => none
  | _ => none

end Version

namespace Postcodes

/-! Basic lemmas about the collected-mapping operations. -/

theorem lookupK_cons_self (k : String) (v : PointsCentroid) (rest : CMap) :
    lookupK ((k, v) :: rest) k = some v := by
  simp [lookupK]

theorem lookupK_cons_ne {k' k : String} (h : k' ≠ k) (v : PointsCentroid)
    (rest : CMap) : lookupK ((k', v) :: rest) k = lookupK rest k := by
  simp [lookupK, h]

theorem popFirst_cons_self (k : String) (v : PointsCentroid) (rest : CMap) :
    popFirst ((k, v) :: rest) k = (some v, rest) := by
  simp [popFirst]

theorem popFirst_cons_ne {k' k : String} (h : k' ≠ k) (v : PointsCentroid)
    (rest : CMap) :
    popFirst ((k', v) :: rest) k = ((popFirst rest k).1, (k', v) :: (popFirst rest k).2) := by
  simp [popFirst, h]

theorem updCollected_cons_self (k : String) (c : PointsCentroid) (rest : CMap)
    (x y : ℚ) : updCollected ((k, c) :: rest) k x y = (k, c.fold x y) :: rest := by
  simp [updCollected]

theorem updCollected_cons_ne {k' k : String} (h : k' ≠ k) (c : PointsCentroid)
    (rest : CMap) (x y : ℚ) :
    updCollected ((k', c) :: rest) k x y = (k', c) :: updCollected rest k x y := by
  simp [updCollected, h]

theorem lookupK_eq_none_iff (m : CMap) (k : String) :
    lookupK m k = none ↔ k ∉ keysOf m := by
  induction m with
  | nil => simp [lookupK, keysOf]
  | cons e rest ih =>
      obtain ⟨k', v⟩ := e
      by_cases h : k' = k
      · subst h
        simp [lookupK_cons_self, keysOf]
      · rw [lookupK_cons_ne h]
        simp [keysOf, Ne.symm h] at *
        exact ih

theorem mem_of_lookupK {m : CMap} {k : String} {c : PointsCentroid}
    (h : lookupK m k = some c) : (k, c) ∈ m := by
  induction m with
  | nil => simp [lookupK] at h
  | cons e rest ih =>
      obtain ⟨k', v⟩ := e
      by_cases hk : k' = k
      · subst hk
        rw [lookupK_cons_self] at h
        simp at h
        simp [h]
      · rw [lookupK_cons_ne hk] at h
        simp [ih h]

theorem lookupK_of_mem_nodup {m : CMap} {k : String} {c : PointsCentroid}
    (hm : (keysOf m).Nodup) (h : (k, c) ∈ m) : lookupK m k = some c := by
  induction m with
  | nil => simp at h
  | cons e rest ih =>
      obtain ⟨k', v⟩ := e
      simp only [keysOf, List.map_cons, List.nodup_cons] at hm
      rcases List.mem_cons.mp h with h1 | h2
      · have hk : k' = k := (Prod.ext_iff.mp h1.symm).1
        have hv : v = c := (Prod.ext_iff.mp h1.symm).2
        subst hk
        subst hv
        exact lookupK_cons_self _ _ rest
      · have hne : k' ≠ k := by
          intro hkk
          subst hkk
          exact hm.1 (List.mem_map.mpr ⟨(k', c), h2, rfl⟩)
        rw [lookupK_cons_ne hne]
        exact ih hm.2 h2

theorem popFirst_fst (m : CMap) (k : String) : (popFirst m k).1 = lookupK m k := by
  induction m with
  | nil => rfl
  | cons e rest ih =>
      obtain ⟨k', v⟩ := e
      by_cases h : k' = k
      · subst h
        rw [popFirst_cons_self, lookupK_cons_self]
      · rw [popFirst_cons_ne h, lookupK_cons_ne h, ih]

theorem popFirst_none {m : CMap} {k : String} (h : lookupK m k = none) :
    (popFirst m k).2 = m := by
  induction m with
  | nil => rfl
  | cons e rest ih =>
      obtain ⟨k', v⟩ := e
      by_cases hk : k' = k
      · subst hk
        rw [lookupK_cons_self] at h
        exact absurd h (by simp)
      · rw [lookupK_cons_ne hk] at h
        rw [popFirst_cons_ne hk]
        simp [ih h]

theorem popFirst_some {m : CMap} {k : String} {c : PointsCentroid}
    (hm : (keysOf m).Nodup) (h : lookupK m k = some c) :
    (popFirst m k).2 = m.filter (fun e => !decide (e.1 = k)) := by
  induction m with
  | nil => simp [lookupK] at h
  | cons e rest ih =>
      obtain ⟨k', v⟩ := e
      simp only [keysOf, List.map_cons, List.nodup_cons] at hm
      by_cases hk : k' = k
      · subst hk
        have hrest : ∀ e ∈ rest, e.1 ≠ k' := by
          intro e he hek
          exact hm.1 (List.mem_map.mpr ⟨e, he, hek⟩)
        rw [popFirst_cons_self]
        rw [List.filter_cons_of_neg (by simp), List.filter_eq_self.mpr]
        intro e he
        simpa using hrest e he
      · rw [lookupK_cons_ne hk] at h
        rw [popFirst_cons_ne hk, List.filter_cons_of_pos (by simpa using hk)]
        simp [ih hm.2 h]

theorem nodup_keys_filter {m : CMap} (hm : (keysOf m).Nodup)
    (p : String × PointsCentroid → Bool) : (keysOf (m.filter p)).Nodup := by
  have hsub : List.Sublist ((m.filter p).map (fun e => e.1)) (m.map (fun e => e.1)) :=
    (List.filter_sublist m).map _
  exact List.Nodup.sublist hsub hm

theorem lookupK_updCollected_ne {m : CMap} {k k' : String} (h : k ≠ k')
    (x y : ℚ) : lookupK (updCollected m k' x y) k = lookupK m k := by
  induction m with
  | nil => simp [updCollected, lookupK, Ne.symm h]
  | cons e rest ih =>
      obtain ⟨k0, v⟩ := e
      by_cases hk : k0 = k'
      · subst hk
        rw [updCollected_cons_self]
        rw [lookupK_cons_ne (Ne.symm h), lookupK_cons_ne (Ne.symm h)]
      · rw [updCollected_cons_ne hk]
        by_cases hk0 : k0 = k
        · subst hk0
          rw [lookupK_cons_self, lookupK_cons_self]
        · rw [lookupK_cons_ne hk0, lookupK_cons_ne hk0, ih]

theorem mem_keys_updCollected (m : CMap) (k k' : String) (x y : ℚ) :
    k ∈ keysOf (updCollected m k' x y) ↔ k ∈ keysOf m ∨ k = k' := by
  induction m with
  | nil => simp [updCollected, keysOf]
  | cons e rest ih =>
      obtain ⟨k0, v⟩ := e
      by_cases hk : k0 = k'
      · subst hk
        rw [updCollected_cons_self]
        simp [keysOf]
        tauto
      · rw [updCollected_cons_ne hk]
        simp [keysOf] at *
        tauto

theorem nodup_keys_updCollected {m : CMap} (hm : (keysOf m).Nodup)
    (k : String) (x y : ℚ) : (keysOf (updCollected m k x y)).Nodup := by
  induction m with
  | nil => simp [updCollected, keysOf]
  | cons e rest ih =>
      obtain ⟨k0, v⟩ := e
      simp only [keysOf, List.map_cons, List.nodup_cons] at hm
      by_cases hk : k0 = k
      · subst hk
        rw [updCollected_cons_self]
        simp only [keysOf, List.map_cons, List.nodup_cons]
        exact ⟨hm.1, hm.2⟩
      · have h1 : k0 ∉ keysOf (updCollected rest k x y) := by
          rw [mem_keys_updCollected]
          rintro (h | h)
          · exact hm.1 h
          · exact hk h
        rw [updCollected_cons_ne hk]
        simp only [keysOf, List.map_cons, List.nodup_cons]
        exact ⟨h1, ih hm.2⟩

theorem lookupK_filter_ne {C : CMap} {pc k : String} (h : k ≠ pc) :
    lookupK (C.filter (fun e => !decide (e.1 = pc))) k = lookupK C k := by
  induction C with
  | nil => rfl
  | cons e rest ih =>
      obtain ⟨k0, v⟩ := e
      by_cases hk0 : k0 = pc
      · subst hk0
        rw [List.filter_cons_of_neg (by simp), lookupK_cons_ne (Ne.symm h), ih]
      · rw [List.filter_cons_of_pos (by simpa using hk0)]
        by_cases hk : k0 = k
        · subst hk
          rw [lookupK_cons_self, lookupK_cons_self]
        · rw [lookupK_cons_ne hk, lookupK_cons_ne hk, ih]

theorem computeChanges_nil (C : CMap) :
    computeChanges [] C =
      (C.map (fun e => (e.1, (e.2.centroid).1, (e.2.centroid).2)), [], []) := rfl

theorem computeChanges_cons_found {C : CMap} {pc : String} {c : PointsCentroid}
    {C' : CMap} (h : popFirst C pc = (some c, C')) (x y : ℚ)
    (rest : List (String × ℚ × ℚ)) :
    computeChanges ((pc, x, y) :: rest) C =
      (if trigger x y (c.centroid).1 (c.centroid).2 then
        ((computeChanges rest C').1, (computeChanges rest C').2.1,
          ((c.centroid).1, (c.centroid).2, pc) :: (computeChanges rest C').2.2)
      else computeChanges rest C') := by
  simp only [computeChanges, h]

theorem computeChanges_cons_miss {C : CMap} {pc : String}
    (h : lookupK C pc = none) (x y : ℚ) (rest : List (String × ℚ × ℚ)) :
    computeChanges ((pc, x, y) :: rest) C =
      ((computeChanges rest C).1, pc :: (computeChanges rest C).2.1,
        (computeChanges rest C).2.2) := by
  rcases hp : popFirst C pc with ⟨o, C'⟩
  have ho : o = none := by
    rw [← popFirst_fst C pc, hp] at h
    exact h
  subst ho
  simp only [computeChanges, hp]

/-- Closed form of `_compute_changes` under the dict invariants (at most
one stored row per postcode, unique keys in the collected mapping):
`to_add` is the collected entries whose key is not stored, `to_delete`
the stored postcodes that are not collected, and `to_update` the stored
rows whose postcode is collected and whose stored point triggers the
tolerance condition. -/
theorem computeChanges_eq (stored : List (String × ℚ × ℚ)) (C : CMap)
    (hs : (stored.map (fun r => r.1)).Nodup) (hc : (keysOf C).Nodup) :
    computeChanges stored C =
      ((C.filter (fun e => !decide (e.1 ∈ stored.map (fun r => r.1)))).map
          (fun e => (e.1, (e.2.centroid).1, (e.2.centroid).2)),
       (stored.filter (fun r => (lookupK C r.1).isNone)).map (fun r => r.1),
       stored.filterMap (fun r =>
         (lookupK C r.1).bind (fun c =>
           if trigger r.2.1 r.2.2 (c.centroid).1 (c.centroid).2 then
             some ((c.centroid).1, (c.centroid).2, r.1)
           else none))) := by
  induction stored generalizing C with
  | nil => simp [computeChanges_nil]
  | cons r rest ih =>
      obtain ⟨pc, x, y⟩ := r
      simp only [List.map_cons, List.nodup_cons] at hs
      obtain ⟨hpc, hrest⟩ := hs
      cases hC : lookupK C pc with
      | none =>
          rw [computeChanges_cons_miss hC, ih C hrest hc]
          have hpcC : pc ∉ keysOf C := (lookupK_eq_none_iff C pc).mp hC
          have haddEq :
              C.filter (fun e => !decide (e.1 ∈ pc :: rest.map (fun r => r.1))) =
                C.filter (fun e => !decide (e.1 ∈ rest.map (fun r => r.1))) := by
            apply List.filter_congr
            intro e he
            have hne : e.1 ≠ pc := by
              intro hek
              exact hpcC (hek ▸ List.mem_map.mpr ⟨e, he, rfl⟩)
            simp [List.mem_cons, hne]
          simp only [List.map_cons]
          rw [haddEq, List.filter_cons_of_pos (by simp [hC]),
            List.filterMap_cons_none (by simp [hC]), List.map_cons]
      | some c =>
          rcases hpop : popFirst C pc with ⟨o, C'⟩
          have ho : o = some c := by
            rw [← popFirst_fst C pc, hpop] at hC
            exact hC
          subst ho
          have hC' : C' = C.filter (fun e => !decide (e.1 = pc)) := by
            have h2 := popFirst_some hc hC
            rw [hpop] at h2
            exact h2
          have hc' : (keysOf C').Nodup := by
            rw [hC']
            exact nodup_keys_filter hc _
          have hlook : ∀ r' ∈ rest, lookupK C' r'.1 = lookupK C r'.1 := by
            intro r' hr'
            have hne : r'.1 ≠ pc := by
              intro hek
              exact hpc (hek ▸ List.mem_map.mpr ⟨r', hr', rfl⟩)
            rw [hC']
            exact lookupK_filter_ne hne
          rw [computeChanges_cons_found hpop, ih C' hrest hc']
          have haddEq :
              C'.filter (fun e => !decide (e.1 ∈ rest.map (fun r => r.1))) =
                C.filter (fun e => !decide (e.1 ∈ pc :: rest.map (fun r => r.1))) := by
            rw [hC', List.filter_filter]
            apply List.filter_congr
            intro e _
            by_cases h1 : e.1 = pc <;> by_cases h2 : e.1 ∈ rest.map (fun r => r.1) <;>
              simp [h1, h2, List.mem_cons]
          have hdelEq :
              (rest.filter (fun r => (lookupK C' r.1).isNone)).map (fun r => r.1) =
                (rest.filter (fun r => (lookupK C r.1).isNone)).map (fun r => r.1) := by
            apply congrArg
            apply List.filter_congr
            intro r' hr'
            rw [hlook r' hr']
          have hupdEq :
              rest.filterMap (fun r =>
                  (lookupK C' r.1).bind (fun c0 =>
                    if trigger r.2.1 r.2.2 (c0.centroid).1 (c0.centroid).2 then
                      some ((c0.centroid).1, (c0.centroid).2, r.1)
                    else none)) =
                rest.filterMap (fun r =>
                  (lookupK C r.1).bind (fun c0 =>
                    if trigger r.2.1 r.2.2 (c0.centroid).1 (c0.centroid).2 then
                      some ((c0.centroid).1, (c0.centroid).2, r.1)
                    else none)) := by
            apply List.filterMap_congr
            intro r' hr'
            rw [hlook r' hr']
          simp only [List.map_cons]
          rw [List.filter_cons_of_neg (by simp [hC])]
          by_cases htr : trigger x y (c.centroid).1 (c.centroid).2
          · rw [if_pos htr, haddEq, hdelEq, hupdEq]
            simp [List.filterMap_cons, hC, htr]
          · rw [if_neg htr, haddEq, hdelEq, hupdEq]
            simp [List.filterMap_cons, hC, htr]

theorem stored_row_unique {stored : List (String × ℚ × ℚ)}
    (hs : (stored.map (fun r => r.1)).Nodup) {k : String} {x y x' y' : ℚ}
    (h1 : (k, x, y) ∈ stored) (h2 : (k, x', y') ∈ stored) : x = x' ∧ y = y' := by
  induction stored with
  | nil => simp at h1
  | cons r rest ih =>
      simp only [List.map_cons, List.nodup_cons] at hs
      rcases List.mem_cons.mp h1 with e1 | m1 <;> rcases List.mem_cons.mp h2 with e2 | m2
      · rw [← e1] at e2
        exact ⟨(Prod.ext_iff.mp (Prod.ext_iff.mp e2).2).1.symm,
          (Prod.ext_iff.mp (Prod.ext_iff.mp e2).2).2.symm⟩
      · exfalso
        apply hs.1
        have hk : r.1 = k := by rw [← e1]
        rw [hk]
        exact List.mem_map.mpr ⟨(k, x', y'), m2, rfl⟩
      · exfalso
        apply hs.1
        have hk : r.1 = k := by rw [← e2]
        rw [hk]
        exact List.mem_map.mpr ⟨(k, x, y), m1, rfl⟩
      · exact ih hs.2 m1 m2

theorem mem_addKeys_iff {stored : List (String × ℚ × ℚ)} {C : CMap}
    (hs : (stored.map (fun r => r.1)).Nodup) (hc : (keysOf C).Nodup) (k : String) :
    k ∈ addKeys (computeChanges stored C) ↔
      k ∈ keysOf C ∧ k ∉ stored.map (fun r => r.1) := by
  rw [addKeys, computeChanges_eq stored C hs hc]
  simp only [List.map_map, List.mem_map, List.mem_filter, Function.comp]
  constructor
  · rintro ⟨e, ⟨heC, hmem⟩, rfl⟩
    refine ⟨List.mem_map.mpr ⟨e, heC, rfl⟩, ?_⟩
    simpa using hmem
  · rintro ⟨hkC, hknot⟩
    obtain ⟨e, heC, hek⟩ := List.mem_map.mp hkC
    exact ⟨e, ⟨heC, by simpa [hek] using hknot⟩, hek⟩

theorem mem_delKeys_iff {stored : List (String × ℚ × ℚ)} {C : CMap}
    (hs : (stored.map (fun r => r.1)).Nodup) (hc : (keysOf C).Nodup) (k : String) :
    k ∈ (computeChanges stored C).2.1 ↔
      k ∈ stored.map (fun r => r.1) ∧ lookupK C k = none := by
  rw [computeChanges_eq stored C hs hc]
  constructor
  · intro h
    obtain ⟨r, hr, hrk⟩ := List.mem_map.mp h
    obtain ⟨hrs, hnone⟩ := List.mem_filter.mp hr
    subst hrk
    exact ⟨List.mem_map.mpr ⟨r, hrs, rfl⟩, by simpa using hnone⟩
  · rintro ⟨hkS, hnone⟩
    obtain ⟨r, hr, hrk⟩ := List.mem_map.mp hkS
    apply List.mem_map.mpr
    refine ⟨r, List.mem_filter.mpr ⟨hr, ?_⟩, hrk⟩
    simp [hrk, hnone]

theorem mem_toUpd_iff {stored : List (String × ℚ × ℚ)} {C : CMap}
    (hs : (stored.map (fun r => r.1)).Nodup) (hc : (keysOf C).Nodup)
    (nx ny : ℚ) (k : String) :
    (nx, ny, k) ∈ (computeChanges stored C).2.2 ↔
      ∃ x y c, (k, x, y) ∈ stored ∧ lookupK C k = some c ∧
        trigger x y (c.centroid).1 (c.centroid).2 = true ∧
        nx = (c.centroid).1 ∧ ny = (c.centroid).2 := by
  rw [computeChanges_eq stored C hs hc]
  rw [List.mem_filterMap]
  constructor
  · rintro ⟨r, hr, hval⟩
    cases hL : lookupK C r.1 with
    | none =>
        rw [hL] at hval
        simp at hval
    | some c =>
        rw [hL] at hval
        simp only [Option.some_bind, Option.ite_none_right_eq_some, Option.some.injEq,
          Prod.mk.injEq] at hval
        obtain ⟨htr, hnx, hny, hk⟩ := hval
        subst hk
        exact ⟨r.2.1, r.2.2, c, hr, hL, htr, hnx.symm, hny.symm⟩
  · rintro ⟨x, y, c, hrow, hL, htr, rfl, rfl⟩
    refine ⟨(k, x, y), hrow, ?_⟩
    simp [hL, htr]

theorem trigger_self (a b : ℚ) : trigger a b a b = false := by
  simp only [trigger, sub_self]
  norm_num [tol]

theorem mem_toAdd_row {stored : List (String × ℚ × ℚ)} {C : CMap}
    (hs : (stored.map (fun r => r.1)).Nodup) (hc : (keysOf C).Nodup)
    {r' : String × ℚ × ℚ} (h : r' ∈ (computeChanges stored C).1) :
    ∃ c, lookupK C r'.1 = some c ∧ r'.2.1 = (c.centroid).1 ∧ r'.2.2 = (c.centroid).2 ∧
      r'.1 ∉ stored.map (fun r => r.1) := by
  rw [computeChanges_eq stored C hs hc] at h
  obtain ⟨e, he, rfl⟩ := List.mem_map.mp h
  obtain ⟨heC, hmem⟩ := List.mem_filter.mp he
  exact ⟨e.2, lookupK_of_mem_nodup hc heC, rfl, rfl, by simpa using hmem⟩

theorem applyChanges_keys (stored : List (String × ℚ × ℚ)) (ch : Changes) :
    (applyChanges stored ch).map (fun r => r.1) =
      (stored.filter (fun r => !(ch.2.1.contains r.1))).map (fun r => r.1) ++
        ch.1.map (fun r => r.1) := by
  unfold applyChanges
  rw [List.map_append, List.map_map]
  congr 1
  apply List.map_congr_left
  intro r _
  simp only [Function.comp]
  cases ch.2.2.find? (fun u => decide (u.2.2 = r.1)) <;> rfl

/-- Applying the diff produced by `_compute_changes` to the stored rows
and then diffing again against the same collected state yields the empty
diff. -/
theorem computeChanges_applyChanges_self (stored : List (String × ℚ × ℚ)) (C : CMap)
    (hs : (stored.map (fun r => r.1)).Nodup) (hc : (keysOf C).Nodup) :
    computeChanges (applyChanges stored (computeChanges stored C)) C = ([], [], []) := by
  have hkeys := applyChanges_keys stored (computeChanges stored C)
  have haddnodup : ((computeChanges stored C).1.map (fun r => r.1)).Nodup := by
    rw [computeChanges_eq stored C hs hc]
    simp only [List.map_map]
    exact List.Nodup.sublist ((List.filter_sublist C).map _) hc
  have hleftnodup :
      ((stored.filter (fun r => !((computeChanges stored C).2.1.contains r.1))).map
        (fun r => r.1)).Nodup :=
    List.Nodup.sublist ((List.filter_sublist stored).map _) hs
  have hdisj : ∀ k,
      k ∈ (stored.filter (fun r => !((computeChanges stored C).2.1.contains r.1))).map
        (fun r => r.1) →
      k ∈ (computeChanges stored C).1.map (fun r => r.1) → False := by
    intro k hk1 hk2
    obtain ⟨r, hrf, hrk⟩ := List.mem_map.mp hk1
    have hrs := (List.mem_filter.mp hrf).1
    have hkS : k ∈ stored.map (fun r => r.1) := List.mem_map.mpr ⟨r, hrs, hrk⟩
    have hka : k ∈ addKeys (computeChanges stored C) := hk2
    exact ((mem_addKeys_iff hs hc k).mp hka).2 hkS
  have hs' : ((applyChanges stored (computeChanges stored C)).map (fun r => r.1)).Nodup := by
    rw [hkeys]
    refine List.Nodup.append hleftnodup haddnodup ?_
    intro k hk1 hk2
    exact hdisj k hk1 hk2
  have hfact2 : ∀ r' ∈ applyChanges stored (computeChanges stored C),
      ∃ c, lookupK C r'.1 = some c ∧
        trigger r'.2.1 r'.2.2 (c.centroid).1 (c.centroid).2 = false := by
    intro r' hr'
    unfold applyChanges at hr'
    rcases List.mem_append.mp hr' with hL | hR
    · obtain ⟨r, hrf, hrmap⟩ := List.mem_map.mp hL
      obtain ⟨hrs, hrd⟩ := List.mem_filter.mp hrf
      have hnotdel : r.1 ∉ (computeChanges stored C).2.1 := by
        intro hmem
        simp at hrd
        exact hrd hmem
      have hksome : ∃ c, lookupK C r.1 = some c := by
        cases hL2 : lookupK C r.1 with
        | some c => exact ⟨c, rfl⟩
        | none =>
            exact absurd
              ((mem_delKeys_iff hs hc r.1).mpr ⟨List.mem_map.mpr ⟨r, hrs, rfl⟩, hL2⟩)
              hnotdel
      obtain ⟨c, hL2⟩ := hksome
      cases hfind : (computeChanges stored C).2.2.find? (fun u => decide (u.2.2 = r.1)) with
      | some u =>
          have humem : u ∈ (computeChanges stored C).2.2 := List.mem_of_find?_eq_some hfind
          have hukey : u.2.2 = r.1 := by simpa using List.find?_some hfind
          have hu3 : (u.1, u.2.1, u.2.2) ∈ (computeChanges stored C).2.2 := humem
          obtain ⟨x, y, c', hrow, hL3, htr, hnx, hny⟩ :=
            (mem_toUpd_iff hs hc u.1 u.2.1 u.2.2).mp hu3
          have hcc : c' = c := by
            rw [hukey] at hL3
            rw [hL3] at hL2
            exact Option.some.injEq .. ▸ hL2
          rw [← hrmap]
          simp only [hfind]
          refine ⟨c, hL2, ?_⟩
          rw [hnx, hny, hcc]
          exact trigger_self _ _
      | none =>
          rw [← hrmap]
          simp only [hfind]
          refine ⟨c, hL2, ?_⟩
          cases htr : trigger r.2.1 r.2.2 (c.centroid).1 (c.centroid).2 with
          | false => rfl
          | true =>
              exfalso
              have hmem : ((c.centroid).1, (c.centroid).2, r.1) ∈ (computeChanges stored C).2.2 :=
                (mem_toUpd_iff hs hc (c.centroid).1 (c.centroid).2 r.1).mpr
                  ⟨r.2.1, r.2.2, c, hrs, hL2, htr, rfl, rfl⟩
              have := List.find?_eq_none.mp hfind _ hmem
              simp at this
    · obtain ⟨c, hL2, h1, h2, hnotin⟩ := mem_toAdd_row hs hc hR
      refine ⟨c, hL2, ?_⟩
      rw [h1, h2]
      exact trigger_self _ _
  have hfact3 : ∀ e ∈ C, e.1 ∈ (applyChanges stored (computeChanges stored C)).map
      (fun r => r.1) := by
    intro e he
    rw [hkeys]
    apply List.mem_append.mpr
    by_cases hkS : e.1 ∈ stored.map (fun r => r.1)
    · left
      obtain ⟨r, hr, hrk⟩ := List.mem_map.mp hkS
      apply List.mem_map.mpr
      refine ⟨r, List.mem_filter.mpr ⟨hr, ?_⟩, hrk⟩
      have hlook : lookupK C r.1 = some e.2 := by
        rw [hrk]
        exact lookupK_of_mem_nodup hc he
      have hnd : r.1 ∉ (computeChanges stored C).2.1 := by
        intro hmem
        have h2 := ((mem_delKeys_iff hs hc r.1).mp hmem).2
        rw [hlook] at h2
        exact Option.noConfusion h2
      simpa using hnd
    · right
      have hka : e.1 ∈ addKeys (computeChanges stored C) :=
        (mem_addKeys_iff hs hc e.1).mpr ⟨List.mem_map.mpr ⟨e, he, rfl⟩, hkS⟩
      exact hka
  rw [computeChanges_eq (applyChanges stored (computeChanges stored C)) C hs' hc]
  simp only [Prod.mk.injEq]
  refine ⟨?_, ?_, ?_⟩
  · rw [List.map_eq_nil_iff]
    apply List.filter_eq_nil_iff.mpr
    intro e he
    simp only [Bool.not_eq_true', decide_eq_false_iff_not, Decidable.not_not]
    exact hfact3 e he
  · rw [List.map_eq_nil_iff]
    apply List.filter_eq_nil_iff.mpr
    intro r' hr'
    obtain ⟨c, hL2, _⟩ := hfact2 r' hr'
    simp [hL2]
  · apply List.filterMap_eq_nil_iff.mpr
    intro r' hr'
    obtain ⟨c, hL2, htr⟩ := hfact2 r' hr'
    simp [hL2, htr]

theorem computeChanges_empty_collected (stored : List (String × ℚ × ℚ)) :
    computeChanges stored [] = ([], stored.map (fun r => r.1), []) := by
  induction stored with
  | nil => rfl
  | cons r rest ih =>
      obtain ⟨pc, x, y⟩ := r
      have h0 : lookupK [] pc = none := rfl
      rw [computeChanges_cons_miss h0, ih]
      simp

theorem add_step {μ : Type} (m : Matcher μ) (coll : CMap)
    (cache : Option (String × Option String)) (pc : String) (x y : ℚ)
    (hcache : cache = none ∨
      ∃ p, cache = some (p, (m.matchPc p).bind m.normalize)) :
    ∃ p', Collector.add ⟨some m, coll, cache⟩ pc x y =
      ⟨some m, addPlain m coll pc x y, some (p', (m.matchPc p').bind m.normalize)⟩ := by
  rcases hcache with rfl | ⟨p, rfl⟩
  · refine ⟨pc, ?_⟩
    cases hn : (m.matchPc pc).bind m.normalize with
    | none => simp [Collector.add, addPlain, hn]
    | some s =>
        by_cases hse : s.isEmpty <;> simp [Collector.add, addPlain, hn, hse]
  · by_cases hp : p = pc
    · subst hp
      refine ⟨p, ?_⟩
      cases hn : (m.matchPc p).bind m.normalize with
      | none => simp [Collector.add, addPlain, hn]
      | some s =>
          by_cases hse : s.isEmpty <;> simp [Collector.add, addPlain, hn, hse]
    · refine ⟨pc, ?_⟩
      cases hn : (m.matchPc pc).bind m.normalize with
      | none => simp [Collector.add, addPlain, hp, hn]
      | some s =>
          by_cases hse : s.isEmpty <;> simp [Collector.add, addPlain, hp, hn, hse]

theorem runAdds_collected_eq_plain {μ : Type} (m : Matcher μ)
    (rows : List (String × ℚ × ℚ)) :
    ∀ (coll : CMap) (cache : Option (String × Option String)),
      (cache = none ∨ ∃ p, cache = some (p, (m.matchPc p).bind m.normalize)) →
      (runAdds ⟨some m, coll, cache⟩ rows).collected = runPlain m coll rows := by
  induction rows with
  | nil =>
      intro coll cache _
      rfl
  | cons r rest ih =>
      intro coll cache hcache
      obtain ⟨pc, x, y⟩ := r
      obtain ⟨p', hstep⟩ := add_step m coll cache pc x y hcache
      show (runAdds (Collector.add ⟨some m, coll, cache⟩ pc x y) rest).collected =
        runPlain m (addPlain m coll pc x y) rest
      rw [hstep]
      exact ih (addPlain m coll pc x y) _ (Or.inr ⟨p', rfl⟩)

theorem add_collected_cases {μ : Type} (st : Collector μ) (pc : String) (x y : ℚ) :
    (st.add pc x y).collected = st.collected ∨
      ∃ s, (st.add pc x y).collected = updCollected st.collected s x y := by
  obtain ⟨mat, coll, cache⟩ := st
  cases mat with
  | none => exact Or.inl rfl
  | some m =>
      rcases hcache : cache with _ | ⟨p, n⟩
      · cases hn : (m.matchPc pc).bind m.normalize with
        | none => exact Or.inl (by simp [Collector.add, hn])
        | some s =>
            by_cases hse : s.isEmpty
            · exact Or.inl (by simp [Collector.add, hn, hse])
            · exact Or.inr ⟨s, by simp [Collector.add, hn, hse]⟩
      · by_cases hp : p = pc
        · cases hn : n with
          | none => exact Or.inl (by simp [Collector.add, hp, hn])
          | some s =>
              by_cases hse : s.isEmpty
              · exact Or.inl (by simp [Collector.add, hp, hn, hse])
              · exact Or.inr ⟨s, by simp [Collector.add, hp, hn, hse]⟩
        · cases hn : (m.matchPc pc).bind m.normalize with
          | none => exact Or.inl (by simp [Collector.add, hp, hn])
          | some s =>
              by_cases hse : s.isEmpty
              · exact Or.inl (by simp [Collector.add, hp, hn, hse])
              · exact Or.inr ⟨s, by simp [Collector.add, hp, hn, hse]⟩

theorem runAdds_collected_nodup {μ : Type} (rows : List (String × ℚ × ℚ)) :
    ∀ st : Collector μ, (keysOf st.collected).Nodup →
      (keysOf (runAdds st rows).collected).Nodup := by
  induction rows with
  | nil =>
      intro st h
      exact h
  | cons r rest ih =>
      intro st h
      obtain ⟨pc, x, y⟩ := r
      apply ih
      rcases add_collected_cases st pc x y with he | ⟨s, he⟩
      · rw [he]
        exact h
      · rw [he]
        exact nodup_keys_updCollected h s x y

theorem updateFromExternal_no_override (pf : String → Option PyFloat)
    (ana : String → String) (rows : List ExtRow) :
    ∀ (coll : CMap) (k : String), k ∈ keysOf coll →
      lookupK (updateFromExternal pf ana rows coll) k = lookupK coll k := by
  induction rows with
  | nil =>
      intro coll k _
      rfl
  | cons row rest ih =>
      intro coll k hk
      obtain ⟨op, olat, olon⟩ := row
      cases op with
      | none => rfl
      | some rawPc =>
          cases olat with
          | none => rfl
          | some latStr =>
              cases olon with
              | none => rfl
              | some lonStr =>
                  show lookupK (updateFromExternal pf ana
                    (ExtRow.mk (some rawPc) (some latStr) (some lonStr) :: rest) coll) k =
                    lookupK coll k
                  by_cases hmem : (lookupK coll (ana rawPc)).isSome
                  · simp only [updateFromExternal, hmem, if_true]
                    exact ih coll k hk
                  · have hnk : ana rawPc ≠ k := by
                      intro he
                      rw [he] at hmem
                      rcases hke : lookupK coll k with _ | c
                      · rw [lookupK_eq_none_iff] at hke
                        exact hke hk
                      · rw [hke] at hmem
                        simp at hmem
                    cases hlon : to_float pf lonStr 180 with
                    | none =>
                        cases hlat : to_float pf latStr 90 with
                        | none =>
                            simp [updateFromExternal, hmem, hlon, hlat]
                            exact ih coll k hk
                        | some lav =>
                            simp [updateFromExternal, hmem, hlon, hlat]
                            exact ih coll k hk
                    | some lov =>
                        cases hlat : to_float pf latStr 90 with
                        | none =>
                            simp [updateFromExternal, hmem, hlon, hlat]
                            exact ih coll k hk
                        | some lav =>
                            simp [updateFromExternal, hmem, hlon, hlat]
                            rw [ih (updCollected coll (ana rawPc) lov lav) k
                              (by rw [mem_keys_updCollected]; exact Or.inl hk)]
                            exact lookupK_updCollected_ne (Ne.symm hnk) lov lav

theorem updateFromExternal_bad_row (pf : String → Option PyFloat)
    (ana : String → String) (row : ExtRow) (rest : List ExtRow) (coll : CMap)
    (h : row.postcode = none ∨ row.lat = none ∨ row.lon = none) :
    updateFromExternal pf ana (row :: rest) coll = coll := by
  obtain ⟨op, olat, olon⟩ := row
  cases op with
  | none => cases olat <;> cases olon <;> rfl
  | some p0 =>
      cases olat with
      | none => cases olon <;> rfl
      | some l0 =>
          cases olon with
          | none => rfl
          | some lo0 =>
              exfalso
              rcases h with h | h | h <;> simp at h

theorem zip_lookup_none {header rec : List String} {name : String}
    (h : name ∉ header) : (header.zip rec).lookup name = none := by
  induction header generalizing rec with
  | nil => simp
  | cons h0 ht ih =>
      cases rec with
      | nil => simp
      | cons r0 rt =>
          have hne : name ≠ h0 := by
            intro he
            exact h (he ▸ List.mem_cons_self h0 ht)
          have hnt : name ∉ ht := fun hm => h (List.mem_cons_of_mem h0 hm)
          have hbe : (name == h0) = false := beq_eq_false_iff_ne.mpr hne
          simp [List.lookup, hbe, ih hnt]
          intro a b hab he
          subst he
          exact hnt (List.of_mem_zip hab).1

theorem mem_updKeys_iff {stored : List (String × ℚ × ℚ)} {C : CMap}
    (hs : (stored.map (fun r => r.1)).Nodup) (hc : (keysOf C).Nodup) (k : String) :
    k ∈ updKeys (computeChanges stored C) ↔
      ∃ x y c, (k, x, y) ∈ stored ∧ lookupK C k = some c ∧
        trigger x y (c.centroid).1 (c.centroid).2 = true := by
  unfold updKeys
  constructor
  · intro h
    obtain ⟨u, hu, huk⟩ := List.mem_map.mp h
    have hu3 : (u.1, u.2.1, u.2.2) ∈ (computeChanges stored C).2.2 := hu
    rw [huk] at hu3
    obtain ⟨x, y, c, hrow, hL, htr, _, _⟩ := (mem_toUpd_iff hs hc u.1 u.2.1 k).mp hu3
    exact ⟨x, y, c, hrow, hL, htr⟩
  · rintro ⟨x, y, c, hrow, hL, htr⟩
    exact List.mem_map.mpr ⟨((c.centroid).1, (c.centroid).2, k),
      (mem_toUpd_iff hs hc (c.centroid).1 (c.centroid).2 k).mpr
        ⟨x, y, c, hrow, hL, htr, rfl, rfl⟩, rfl⟩

theorem to_float_spec (pf : String → Option PyFloat) (s : String) (m : ℚ) :
    (to_float pf s m).isSome = true ↔
      ∃ f, pf s = some f ∧ f.finite = true ∧ -m < f.val ∧ f.val < m := by
  constructor
  · intro h
    unfold to_float at h
    cases hp : pf s with
    | none =>
        rw [hp] at h
        simp at h
    | some f =>
        rw [hp] at h
        dsimp only at h
        by_cases hcond : (!f.finite || decide (f.val ≤ -m) || decide (f.val ≥ m)) = true
        · rw [if_pos hcond] at h
          simp at h
        · rw [if_neg hcond] at h
          simp only [Bool.or_eq_true, Bool.not_eq_true', decide_eq_true_eq, not_or] at hcond
          obtain ⟨⟨hf, hle⟩, hge⟩ := hcond
          refine ⟨f, rfl, ?_, not_le.mp hle, not_le.mp hge⟩
          cases hfe : f.finite
          · exact absurd hfe hf
          · rfl
  · rintro ⟨f, hpf, hfin, hlt1, hlt2⟩
    unfold to_float
    rw [hpf]
    dsimp only
    have hcond : (!f.finite || decide (f.val ≤ -m) || decide (f.val ≥ m)) = false := by
      simp only [hfin, Bool.not_true, Bool.false_or, Bool.or_eq_false_iff,
        decide_eq_false_iff_not, not_le]
      exact ⟨hlt1, hlt2⟩
    rw [hcond]
    simp

end Postcodes

namespace Version

theorem natRepr_isDigit (n : ℕ) : ∀ c ∈ natRepr n, c.isDigit = true := by
  intro c hc
  unfold natRepr at hc
  by_cases h0 : n = 0
  · rw [if_pos h0] at hc
    simp at hc
    subst hc
    decide
  · rw [if_neg h0] at hc
    obtain ⟨d, hd, rfl⟩ := List.mem_map.mp hc
    have hd10 : d < 10 := Nat.digits_lt_base (by norm_num) (List.mem_reverse.mp hd)
    interval_cases d <;> decide

theorem natRepr_ne_nil (n : ℕ) : natRepr n ≠ [] := by
  unfold natRepr
  by_cases h0 : n = 0
  · rw [if_pos h0]
    simp
  · rw [if_neg h0]
    simp [Nat.digits_ne_nil_iff_ne_zero.mpr h0]

theorem not_dot_mem_natRepr (n : ℕ) : '.' ∉ natRepr n := by
  intro h
  have := natRepr_isDigit n '.' h
  simp at this

theorem not_dash_mem_natRepr (n : ℕ) : '-' ∉ natRepr n := by
  intro h
  have := natRepr_isDigit n '-' h
  simp at this

theorem splitOnChar_no_sep {sep : Char} {xs : List Char} (h : sep ∉ xs) :
    splitOnChar sep xs = [xs] := by
  induction xs with
  | nil => rfl
  | cons c ct ih =>
      have hc : ¬(c = sep) := by
        intro he
        exact h (he ▸ List.mem_cons_self c ct)
      have hct : sep ∉ ct := fun hm => h (List.mem_cons_of_mem c hm)
      simp [splitOnChar, hc, ih hct]

theorem splitOnChar_append_sep {sep : Char} {xs ys : List Char} (h : sep ∉ xs) :
    splitOnChar sep (xs ++ sep :: ys) = xs :: splitOnChar sep ys := by
  induction xs with
  | nil => simp [splitOnChar]
  | cons c ct ih =>
      have hc : ¬(c = sep) := by
        intro he
        exact h (he ▸ List.mem_cons_self c ct)
      have hct : sep ∉ ct := fun hm => h (List.mem_cons_of_mem c hm)
      simp only [List.cons_append, splitOnChar, if_neg hc, List.append_eq]
      rw [ih hct]

theorem foldr_base_eq_ofDigits (l : List ℕ) :
    l.foldr (fun d acc => 10 * acc + d) 0 = Nat.ofDigits 10 l := by
  induction l with
  | nil => rfl
  | cons d t ih =>
      rw [Nat.ofDigits_cons, List.foldr_cons, ih]
      omega

theorem parseNat_natRepr (n : ℕ) : parseNat (natRepr n) = some n := by
  by_cases h0 : n = 0
  · subst h0
    decide
  · have hall : (natRepr n).all (fun c => c.isDigit) = true :=
      List.all_eq_true.mpr (natRepr_isDigit n)
    unfold parseNat
    rw [if_pos ⟨natRepr_ne_nil n, hall⟩]
    congr 1
    unfold natRepr
    rw [if_neg h0]
    rw [List.foldl_map]
    rw [List.foldl_ext _ (fun (acc d : ℕ) => 10 * acc + d) 0 ?hext]
    case hext =>
      intro acc d hd
      have hd10 : d < 10 := Nat.digits_lt_base (by norm_num) (List.mem_reverse.mp hd)
      have hch : (Char.ofNat (d + 48)).toNat = d + 48 := by
        interval_cases d <;> decide
      dsimp only
      rw [hch]
      omega
    rw [List.foldl_reverse]
    have : (fun (x : ℕ) (y : ℕ) => (fun (acc d : ℕ) => 10 * acc + d) y x) =
        (fun (d acc : ℕ) => 10 * acc + d) := rfl
    rw [this, foldr_base_eq_ofDigits, Nat.ofDigits_digits]

/-- C10: version string round-trip — for every `NominatimVersion` whose
four fields are non-negative integers, `parse_version(str(v))` returns a
version equal to `v`. -/
theorem parse_version_roundtrip (v : NominatimVersion) :
    parse_version (versionStr v) = some v := by
  have h1 : splitOnChar '.' (versionStr v) =
      [natRepr v.major, natRepr v.minor,
        natRepr v.patch_level ++ '-' :: natRepr v.db_patch_level] := by
    unfold versionStr
    rw [splitOnChar_append_sep (not_dot_mem_natRepr v.major),
      splitOnChar_append_sep (not_dot_mem_natRepr v.minor),
      splitOnChar_no_sep ?hrest]
    case hrest =>
      intro hmem
      rcases List.mem_append.mp hmem with h | h
      · exact not_dot_mem_natRepr v.patch_level h
      · rcases List.mem_cons.mp h with h | h
        · exact absurd h (by decide)
        · exact not_dot_mem_natRepr v.db_patch_level h
  have h2 : splitOnChar '-' (natRepr v.patch_level ++ '-' :: natRepr v.db_patch_level) =
      [natRepr v.patch_level, natRepr v.db_patch_level] := by
    rw [splitOnChar_append_sep (not_dash_mem_natRepr v.patch_level),
      splitOnChar_no_sep (not_dash_mem_natRepr v.db_patch_level)]
  unfold parse_version
  rw [h1]
  simp only [h2, parseNat_natRepr]

end Version

namespace Postcodes

/-- C1 (counterexample): the claim says that for a collector without a
matcher capability, `add(rawPostcode, x, y)` uses the raw postcode
directly as canonical key.  In the code the entire body of `add` is
guarded by `if self.matcher is not None:`, so with `matcher = None` the
call is a no-op: after `add("12345", 1, 2)` on a fresh collector the
collected mapping is still empty and holds no accumulator for
`"12345"`. -/
theorem add_no_matcher_counterexample :
    ((Collector.init (μ := Unit) none).add "12345" 1 2).collected = [] ∧
    lookupK ((Collector.init (μ := Unit) none).add "12345" 1 2).collected "12345" = none :=
  ⟨rfl, rfl⟩

/-- C1 (amended): for every collector whose matcher capability is
`None`, `add(rawPostcode, x, y)` leaves the collector unchanged — the
point is dropped and the raw postcode is never used as a key. -/
theorem add_no_matcher_noop {μ : Type} (st : Collector μ) (pc : String) (x y : ℚ)
    (h : st.matcher = none) : st.add pc x y = st := by
  obtain ⟨mat, coll, cache⟩ := st
  simp only at h
  subst h
  rfl

/-- Witness for C1's amended theorem at a concrete input. -/
theorem add_no_matcher_noop_witness :
    (Collector.init (μ := Unit) none).add "12345" 1 2 = Collector.init none :=
  add_no_matcher_noop (Collector.init none) "12345" 1 2 rfl

/-- C2 (counterexample): stored point `(0, 0)` for postcode `"00100"`,
recomputed centroid `(1, 0)`; the first coordinate differs by `1`, far
beyond the tolerance `1e-7`, but in the direction stored < recomputed.
The code's condition `(x - newx) > 0.0000001 or (y - newy) > 0.0000001`
does not fire, so `to_update` stays empty, contradicting the claim that
any difference greater than the tolerance in either direction triggers
an update. -/
theorem tolerance_asymmetry_counterexample :
    ((1 : ℚ) - 0 > tol) ∧
    computeChanges [("00100", 0, 0)] [("00100", ⟨1, 0, 1⟩)] = ([], [], []) := by
  constructor
  · norm_num [tol]
  · norm_num [computeChanges, popFirst, trigger, tol, PointsCentroid.centroid]

/-- C2 (amended): for a stored row `(k, x, y)` whose postcode is also
collected with centroid `(newx, newy)`, the diff puts the postcode into
`to_update` exactly when `x - newx > 1e-7` or `y - newy > 1e-7` — i.e.
only when a stored coordinate exceeds the recomputed one by strictly
more than the tolerance; a difference of exactly the tolerance, or any
difference in the other direction, never triggers an update. -/
theorem update_tolerance_rule (stored : List (String × ℚ × ℚ)) (C : CMap)
    (hs : (stored.map (fun r => r.1)).Nodup) (hc : (keysOf C).Nodup)
    (k : String) (x y : ℚ) (c : PointsCentroid)
    (hrow : (k, x, y) ∈ stored) (hL : lookupK C k = some c) :
    ((c.centroid).1, (c.centroid).2, k) ∈ (computeChanges stored C).2.2 ↔
      (x - (c.centroid).1 > tol ∨ y - (c.centroid).2 > tol) := by
  rw [mem_toUpd_iff hs hc]
  constructor
  · rintro ⟨x', y', c', hrow', hL', htr, h1, h2⟩
    have hcc : c' = c := by
      rw [hL] at hL'
      exact Option.some.inj hL'.symm
    subst hcc
    obtain ⟨hx, hy⟩ := stored_row_unique hs hrow hrow'
    subst hx
    subst hy
    simpa [trigger] using htr
  · intro h
    refine ⟨x, y, c, hrow, hL, ?_, rfl, rfl⟩
    simpa [trigger] using h

/-- Witness for C2's amended theorem at a concrete input: stored `(1, 0)`
against centroid `(0, 0)` exceeds the tolerance positively, so the
update entry is present. -/
theorem update_tolerance_rule_witness :
    ((((⟨0, 0, 1⟩ : PointsCentroid).centroid).1,
        ((⟨0, 0, 1⟩ : PointsCentroid).centroid).2, "A") ∈
      (computeChanges [("A", 1, 0)] [("A", ⟨0, 0, 1⟩)]).2.2) ↔
      ((1 : ℚ) - ((⟨0, 0, 1⟩ : PointsCentroid).centroid).1 > tol ∨
        (0 : ℚ) - ((⟨0, 0, 1⟩ : PointsCentroid).centroid).2 > tol) :=
  update_tolerance_rule [("A", 1, 0)] [("A", ⟨0, 0, 1⟩)] (by simp) (by simp [keysOf])
    "A" 1 0 ⟨0, 0, 1⟩ (by simp) rfl

/-- C3: under the stored-table invariant (at most one row per postcode)
and the dict invariant on the collected mapping, the three diff buckets
have pairwise disjoint key sets, and every postcode of the country
(stored or collected) falls into exactly one of to-add, to-delete,
to-update, unchanged. -/
theorem changes_bucket_partition (stored : List (String × ℚ × ℚ)) (C : CMap)
    (hs : (stored.map (fun r => r.1)).Nodup) (hc : (keysOf C).Nodup) :
    (∀ k, ¬(k ∈ addKeys (computeChanges stored C) ∧
      k ∈ (computeChanges stored C).2.1)) ∧
    (∀ k, ¬(k ∈ addKeys (computeChanges stored C) ∧
      k ∈ updKeys (computeChanges stored C))) ∧
    (∀ k, ¬(k ∈ (computeChanges stored C).2.1 ∧
      k ∈ updKeys (computeChanges stored C))) ∧
    (∀ k, k ∈ stored.map (fun r => r.1) ∨ k ∈ keysOf C →
      (k ∈ addKeys (computeChanges stored C) ∨ k ∈ (computeChanges stored C).2.1 ∨
        k ∈ updKeys (computeChanges stored C) ∨ unchangedKey stored C k) ∧
      (k ∈ addKeys (computeChanges stored C) →
        k ∉ (computeChanges stored C).2.1 ∧ k ∉ updKeys (computeChanges stored C) ∧
          ¬unchangedKey stored C k) ∧
      (k ∈ (computeChanges stored C).2.1 →
        k ∉ updKeys (computeChanges stored C) ∧ ¬unchangedKey stored C k) ∧
      (k ∈ updKeys (computeChanges stored C) → ¬unchangedKey stored C k)) := by
  have hmemS : ∀ (k : String) (x y : ℚ), (k, x, y) ∈ stored →
      k ∈ stored.map (fun r => r.1) :=
    fun k x y h => List.mem_map.mpr ⟨(k, x, y), h, rfl⟩
  have hAD : ∀ k, ¬(k ∈ addKeys (computeChanges stored C) ∧
      k ∈ (computeChanges stored C).2.1) := by
    rintro k ⟨ha, hd⟩
    exact ((mem_addKeys_iff hs hc k).mp ha).2 ((mem_delKeys_iff hs hc k).mp hd).1
  have hAU : ∀ k, ¬(k ∈ addKeys (computeChanges stored C) ∧
      k ∈ updKeys (computeChanges stored C)) := by
    rintro k ⟨ha, hu⟩
    obtain ⟨x, y, c, hrow, _, _⟩ := (mem_updKeys_iff hs hc k).mp hu
    exact ((mem_addKeys_iff hs hc k).mp ha).2 (hmemS k x y hrow)
  have hDU : ∀ k, ¬(k ∈ (computeChanges stored C).2.1 ∧
      k ∈ updKeys (computeChanges stored C)) := by
    rintro k ⟨hd, hu⟩
    obtain ⟨_, hnone⟩ := (mem_delKeys_iff hs hc k).mp hd
    obtain ⟨x, y, c, _, hsome, _⟩ := (mem_updKeys_iff hs hc k).mp hu
    rw [hnone] at hsome
    exact Option.noConfusion hsome
  have hAN : ∀ k, k ∈ addKeys (computeChanges stored C) → ¬unchangedKey stored C k := by
    rintro k ha ⟨x, y, c, hrow, _, _⟩
    exact ((mem_addKeys_iff hs hc k).mp ha).2 (hmemS k x y hrow)
  have hDN : ∀ k, k ∈ (computeChanges stored C).2.1 → ¬unchangedKey stored C k := by
    rintro k hd ⟨x, y, c, hrow, hsome, _⟩
    obtain ⟨_, hnone⟩ := (mem_delKeys_iff hs hc k).mp hd
    rw [hnone] at hsome
    exact Option.noConfusion hsome
  have hUN : ∀ k, k ∈ updKeys (computeChanges stored C) → ¬unchangedKey stored C k := by
    rintro k hu ⟨x, y, c, hrow, hsome, htrF⟩
    obtain ⟨x', y', c', hrow', hsome', htrT⟩ := (mem_updKeys_iff hs hc k).mp hu
    obtain ⟨hx, hy⟩ := stored_row_unique hs hrow hrow'
    have hcc : c' = c := by
      rw [hsome] at hsome'
      exact Option.some.inj hsome'.symm
    subst hcc
    subst hx
    subst hy
    rw [htrT] at htrF
    exact Bool.noConfusion htrF
  refine ⟨hAD, hAU, hDU, ?_⟩
  intro k hk
  refine ⟨?_, fun ha => ⟨fun hd => hAD k ⟨ha, hd⟩, fun hu => hAU k ⟨ha, hu⟩, hAN k ha⟩,
    fun hd => ⟨fun hu => hDU k ⟨hd, hu⟩, hDN k hd⟩, hUN k⟩
  by_cases hkS : k ∈ stored.map (fun r => r.1)
  · obtain ⟨r, hr, hrk⟩ := List.mem_map.mp hkS
    subst hrk
    have hrow : (r.1, r.2.1, r.2.2) ∈ stored := hr
    cases hL : lookupK C r.1 with
    | none =>
        exact Or.inr (Or.inl ((mem_delKeys_iff hs hc r.1).mpr ⟨hkS, hL⟩))
    | some c =>
        cases htr : trigger r.2.1 r.2.2 (c.centroid).1 (c.centroid).2 with
        | true =>
            exact Or.inr (Or.inr (Or.inl
              ((mem_updKeys_iff hs hc r.1).mpr ⟨r.2.1, r.2.2, c, hrow, hL, htr⟩)))
        | false =>
            exact Or.inr (Or.inr (Or.inr ⟨r.2.1, r.2.2, c, hrow, hL, htr⟩))
  · have hkC : k ∈ keysOf C := by
      rcases hk with h | h
      · exact absurd h hkS
      · exact h
    exact Or.inl ((mem_addKeys_iff hs hc k).mpr ⟨hkC, hkS⟩)

/-- Witness for C3 at a concrete input: one stored row, one collected
entry with a different key. -/
theorem changes_bucket_partition_witness :
    (∀ k, ¬(k ∈ addKeys (computeChanges [("A", 0, 0)] [("B", ⟨1, 2, 1⟩)]) ∧
      k ∈ (computeChanges [("A", 0, 0)] [("B", ⟨1, 2, 1⟩)]).2.1)) ∧
    (∀ k, ¬(k ∈ addKeys (computeChanges [("A", 0, 0)] [("B", ⟨1, 2, 1⟩)]) ∧
      k ∈ updKeys (computeChanges [("A", 0, 0)] [("B", ⟨1, 2, 1⟩)]))) ∧
    (∀ k, ¬(k ∈ (computeChanges [("A", 0, 0)] [("B", ⟨1, 2, 1⟩)]).2.1 ∧
      k ∈ updKeys (computeChanges [("A", 0, 0)] [("B", ⟨1, 2, 1⟩)]))) ∧
    (∀ k, k ∈ ([("A", (0 : ℚ), (0 : ℚ))].map (fun r => r.1)) ∨
        k ∈ keysOf [("B", ⟨1, 2, 1⟩)] →
      (k ∈ addKeys (computeChanges [("A", 0, 0)] [("B", ⟨1, 2, 1⟩)]) ∨
        k ∈ (computeChanges [("A", 0, 0)] [("B", ⟨1, 2, 1⟩)]).2.1 ∨
        k ∈ updKeys (computeChanges [("A", 0, 0)] [("B", ⟨1, 2, 1⟩)]) ∨
        unchangedKey [("A", 0, 0)] [("B", ⟨1, 2, 1⟩)] k) ∧
      (k ∈ addKeys (computeChanges [("A", 0, 0)] [("B", ⟨1, 2, 1⟩)]) →
        k ∉ (computeChanges [("A", 0, 0)] [("B", ⟨1, 2, 1⟩)]).2.1 ∧
          k ∉ updKeys (computeChanges [("A", 0, 0)] [("B", ⟨1, 2, 1⟩)]) ∧
          ¬unchangedKey [("A", 0, 0)] [("B", ⟨1, 2, 1⟩)] k) ∧
      (k ∈ (computeChanges [("A", 0, 0)] [("B", ⟨1, 2, 1⟩)]).2.1 →
        k ∉ updKeys (computeChanges [("A", 0, 0)] [("B", ⟨1, 2, 1⟩)]) ∧
          ¬unchangedKey [("A", 0, 0)] [("B", ⟨1, 2, 1⟩)] k) ∧
      (k ∈ updKeys (computeChanges [("A", 0, 0)] [("B", ⟨1, 2, 1⟩)]) →
        ¬unchangedKey [("A", 0, 0)] [("B", ⟨1, 2, 1⟩)] k)) :=
  changes_bucket_partition [("A", 0, 0)] [("B", ⟨1, 2, 1⟩)] (by simp) (by simp [keysOf])

/-- C4: committing a collector's diff against the stored rows and then
recomputing the diff from a second collector fed the identical source
rows (hence with the identical collected mapping, `add` being
deterministic) yields empty to-add, to-delete and to-update. -/
theorem commit_idempotent {μ : Type} (matcher : Option (Matcher μ))
    (rows stored : List (String × ℚ × ℚ))
    (hs : (stored.map (fun r => r.1)).Nodup) :
    computeChanges
      (applyChanges stored
        (computeChanges stored (runAdds (Collector.init matcher) rows).collected))
      (runAdds (Collector.init matcher) rows).collected = ([], [], []) :=
  computeChanges_applyChanges_self stored _ hs
    (runAdds_collected_nodup rows _ (by simp [Collector.init, keysOf]))

/-- Witness for C4 at a concrete input. -/
theorem commit_idempotent_witness :
    computeChanges
      (applyChanges [("00100", 13, 52)]
        (computeChanges [("00100", 13, 52)]
          (runAdds (Collector.init (μ := Unit) none) []).collected))
      (runAdds (Collector.init (μ := Unit) none) []).collected = ([], [], []) :=
  commit_idempotent none [] [("00100", 13, 52)] (by simp)

/-- C5: an external-file row whose (normalized) postcode key is already
present in the collector's in-memory set leaves that key's accumulator
unchanged — the merge never touches an existing key, whatever the
external coordinates are. -/
theorem external_merge_priority (pf : String → Option PyFloat)
    (ana : String → String) (rows : List ExtRow) (coll : CMap) (k : String)
    (hk : k ∈ keysOf coll) :
    lookupK (updateFromExternal pf ana rows coll) k = lookupK coll k :=
  updateFromExternal_no_override pf ana rows coll k hk

/-- Witness for C5 at a concrete input: the external row carries the
same postcode with different coordinates and is ignored. -/
theorem external_merge_priority_witness :
    lookupK (updateFromExternal pfProbe (fun s => s)
        [⟨some "10115", some "45.0", some "13.0"⟩]
        [("10115", ⟨13, 52, 1⟩)]) "10115" =
      lookupK [("10115", ⟨13, 52, 1⟩)] "10115" :=
  external_merge_priority pfProbe (fun s => s)
    [⟨some "10115", some "45.0", some "13.0"⟩]
    [("10115", ⟨13, 52, 1⟩)] "10115" (by simp [keysOf])

/-- C6: a collector that received zero source rows (as the driver builds
for countries present only in the stored table) has an empty collected
mapping, and its diff against the stored rows is a to-delete entry for
every stored postcode with to-add and to-update empty. -/
theorem empty_collector_deletes_all {μ : Type} (matcher : Option (Matcher μ))
    (stored : List (String × ℚ × ℚ)) :
    computeChanges stored (runAdds (Collector.init matcher) []).collected =
      ([], stored.map (fun r => r.1), []) :=
  computeChanges_empty_collected stored

/-- C7: an external coordinate is accepted iff Python `float` parses it
to a finite value lying strictly inside the open interval
`(-max, max)` (`(-180, 180)` for lon, `(-90, 90)` for lat); in
particular `180.0`, `-180.0`, `90.0` and `-90.0` are rejected while
`179.999999` is accepted; and a row whose coordinates fail parsing or
range validation is skipped on its own, the remaining rows being
processed as if it were absent. -/
theorem external_coordinate_validation :
    (∀ (pf : String → Option PyFloat) (s : String) (m : ℚ),
      (to_float pf s m).isSome = true ↔
        ∃ f, pf s = some f ∧ f.finite = true ∧ -m < f.val ∧ f.val < m) ∧
    to_float pfProbe "180.0" 180 = none ∧
    to_float pfProbe "-180.0" 180 = none ∧
    to_float pfProbe "90.0" 90 = none ∧
    to_float pfProbe "-90.0" 90 = none ∧
    to_float pfProbe "179.999999" 180 = some (179999999 / 1000000) ∧
    (∀ (pf : String → Option PyFloat) (ana : String → String) (row : ExtRow)
        (rest : List ExtRow) (coll : CMap) (rawPc latStr lonStr : String),
      row.postcode = some rawPc → row.lat = some latStr → row.lon = some lonStr →
      (lookupK coll (ana rawPc)).isSome = false →
      (to_float pf lonStr 180 = none ∨ to_float pf latStr 90 = none) →
      updateFromExternal pf ana (row :: rest) coll =
        updateFromExternal pf ana rest coll) := by
  refine ⟨to_float_spec, ?_, ?_, ?_, ?_, ?_, ?_⟩
  · have h : pfProbe "180.0" = some ⟨true, 180⟩ := rfl
    norm_num [to_float, h]
  · have h : pfProbe "-180.0" = some ⟨true, -180⟩ := rfl
    norm_num [to_float, h]
  · have h : pfProbe "90.0" = some ⟨true, 90⟩ := rfl
    norm_num [to_float, h]
  · have h : pfProbe "-90.0" = some ⟨true, -90⟩ := rfl
    norm_num [to_float, h]
  · have h : pfProbe "179.999999" = some ⟨true, 179999999 / 1000000⟩ := rfl
    norm_num [to_float, h]
  · intro pf ana row rest coll rawPc latStr lonStr hpc hlat hlon hmem hbad
    obtain ⟨op, olat, olon⟩ := row
    simp only at hpc hlat hlon
    subst hpc
    subst hlat
    subst hlon
    rcases hbad with hb | hb
    · cases hlat2 : to_float pf latStr 90 <;>
        simp [updateFromExternal, hmem, hb, hlat2]
    · cases hlon2 : to_float pf lonStr 180 <;>
        simp [updateFromExternal, hmem, hb, hlon2]

/-- Witness for C7's row-skipping part at a concrete input: the first
row has latitude `90.0` (rejected) and is skipped, the second row is
still processed. -/
theorem external_coordinate_validation_witness :
    updateFromExternal pfProbe (fun s => s)
        [⟨some "10", some "90.0", some "13.0"⟩, ⟨some "11", some "45.0", some "13.0"⟩]
        [] =
      updateFromExternal pfProbe (fun s => s)
        [⟨some "11", some "45.0", some "13.0"⟩] [] :=
  external_coordinate_validation.2.2.2.2.2.2 pfProbe (fun s => s)
    ⟨some "10", some "90.0", some "13.0"⟩
    [⟨some "11", some "45.0", some "13.0"⟩] [] "10" "90.0" "13.0" rfl rfl rfl rfl
    (Or.inr (by have h : pfProbe "90.0" = some ⟨true, 90⟩ := rfl; norm_num [to_float, h]))

/-- C8: when the external file's header lacks one of the required
`postcode`, `lat`, `lon` columns, the merge returns with the collected
mapping unchanged (no external row is folded in), so the
database-derived state proceeds to the diff untouched. -/
theorem external_missing_column_aborts (pf : String → Option PyFloat)
    (ana : String → String) (header : List String) (recs : List (List String))
    (coll : CMap)
    (h : "postcode" ∉ header ∨ "lat" ∉ header ∨ "lon" ∉ header) :
    updateFromExternal pf ana (dictRows header recs) coll = coll := by
  cases recs with
  | nil => rfl
  | cons rec rest =>
      have hrows : dictRows header (rec :: rest) =
          dictRow header rec :: dictRows header rest := rfl
      rw [hrows]
      apply updateFromExternal_bad_row
      rcases h with h | h | h
      · exact Or.inl (zip_lookup_none h)
      · exact Or.inr (Or.inl (zip_lookup_none h))
      · exact Or.inr (Or.inr (zip_lookup_none h))

/-- Witness for C8 at a concrete input: header without a `lon` column. -/
theorem external_missing_column_aborts_witness :
    updateFromExternal pfProbe (fun s => s)
        (dictRows ["postcode", "lat"] [["10115", "52.0"]])
        [("1", ⟨1, 1, 1⟩)] = [("1", ⟨1, 1, 1⟩)] :=
  external_missing_column_aborts pfProbe (fun s => s) ["postcode", "lat"]
    [["10115", "52.0"]] [("1", ⟨1, 1, 1⟩)] (Or.inr (Or.inr (by decide)))

/-- C9: the one-slot normalization cache is a pure optimization — for
every sequence of `add` calls on a fresh collector with a configured
(pure) matcher, the final collected mapping equals that of the
cache-free variant that runs `match` and `normalize` on every call. -/
theorem normalization_cache_refinement {μ : Type} (m : Matcher μ)
    (rows : List (String × ℚ × ℚ)) :
    (runAdds (Collector.init (some m)) rows).collected = runPlain m [] rows :=
  runAdds_collected_eq_plain m rows [] none (Or.inl rfl)

end Postcodes
